import Mathlib

/-!
Shallow embedding of the PDF-to-text conversion bot (`main.py`) and proofs
about its text normalizer, extraction engine, large-scan chunking, feedback
ledger, delivery deduplication and pending-document holding area.

Text is modelled as `List Char`; Python string operations (`str.splitlines`,
`str.strip`, the three `re.sub` rewrites of `clean_text`) are embedded with
their documented Unicode semantics.
-/

namespace InterPdf

/-! ### Character classes (Python semantics) -/

/-- The line boundaries recognized by Python `str.splitlines`:
`\n`, `\r`, `\v` (0x0B), `\f` (0x0C), FS/GS/RS (0x1C-0x1E), NEL (0x85),
LINE SEPARATOR (U+2028), PARAGRAPH SEPARATOR (U+2029). -/
def isLineBoundary (c : Char) : Bool :=
  c = '\n' || c = '\r' || c.toNat = 11 || c.toNat = 12 ||
  c.toNat = 28 || c.toNat = 29 || c.toNat = 30 || c.toNat = 133 ||
  c.toNat = 8232 || c.toNat = 8233

/-- Characters stripped by Python `str.strip()` (Unicode whitespace). -/
def pyWs (c : Char) : Bool :=
  c = ' ' || c = '\t' || isLineBoundary c || c.toNat = 31 || c.toNat = 160 ||
  c.toNat = 5760 || (8192 ≤ c.toNat && c.toNat ≤ 8202) || c.toNat = 8239 ||
  c.toNat = 8287 || c.toNat = 12288

/-- The character class `[а-яА-Яa-zA-Z]` of the hyphenation-repair regex in
`clean_text` (note: `а-я` is U+0430..U+044F, so `ё` is excluded, exactly as
in the source pattern). -/
def isAlphaRC (c : Char) : Bool :=
  (97 ≤ c.toNat && c.toNat ≤ 122) || (65 ≤ c.toNat && c.toNat ≤ 90) ||
  (1072 ≤ c.toNat && c.toNat ≤ 1103) || (1040 ≤ c.toNat && c.toNat ≤ 1071)

/-- A character that is not an exotic line boundary: inputs made of such
characters are split into lines on `\n` alone. -/
def benign (c : Char) : Bool := !isLineBoundary c || c = '\n'

/-! ### Python string primitives -/

/-- Drop the maximal run of `p`-characters from both ends of a list. -/
def pstrip (p : α → Bool) (s : List α) : List α :=
  ((s.dropWhile p).reverse.dropWhile p).reverse

/-- `str.strip()`: drop leading and trailing whitespace. -/
def pyStrip (s : List Char) : List Char := pstrip pyWs s

/-- `"\n".join(lines)`. -/
def joinNL : List (List Char) → List Char
  | [] => []
  | [l] => l
  | l :: ls => l ++ '\n' :: joinNL ls

/-- Split on `'\n'` alone, keeping a (possibly empty) final segment.
Used only in proofs, to characterize `pySplitlines` on benign input. -/
def splitNL : List Char → List (List Char)
  | [] => [[]]
  | c :: rest =>
    if c = '\n' then [] :: splitNL rest
    else
      match splitNL rest with
      | [] => [[c]]
      | l :: ls => (c :: l) :: ls

/-- Worker for `pySplitlines`, processing from a line start; `prevCR` records
that the previous character was `'\r'`, in which case an immediate `'\n'`
belongs to the same `\r\n` boundary and is consumed silently. -/
def pySplitlinesAux : Bool → List Char → List (List Char)
  | _, [] => []
  | prevCR, c :: rest =>
    if prevCR = true ∧ c = '\n' then pySplitlinesAux false rest
    else if isLineBoundary c then
      [] :: pySplitlinesAux (decide (c = '\r')) rest
    else
      match pySplitlinesAux false rest with
      | [] => [[c]]
      | l :: ls => (c :: l) :: ls

/-- Python `str.splitlines()`: split at every line boundary, treat `\r\n` as
one boundary, and do not produce a final empty line for a trailing boundary. -/
def pySplitlines (s : List Char) : List (List Char) := pySplitlinesAux false s

/-! ### `clean_text` (the Text Normalizer), stage by stage -/

/-- Stage 1 of `clean_text`:
`re.sub(r'([а-яА-Яa-zA-Z])-\n([а-яА-Яa-zA-Z])', r'\1\2', text)` with
`re.sub`'s left-to-right, consumed-match scan. -/
def sub1Aux : Nat → List Char → List Char
  | _, [] => []
  | skip + 1, _ :: rest => sub1Aux skip rest
  | 0, a :: rest =>
    if isAlphaRC a ∧ rest.head? = some '-' ∧ rest.tail.head? = some '\n' ∧
        rest.tail.tail.head?.any isAlphaRC then
      a :: (rest.tail.tail.head?.getD a) :: sub1Aux 3 rest
    else a :: sub1Aux 0 rest

/-- Stage 1 as applied to a whole string: after a match `a-\n d ↦ a d` the
matched characters are consumed (`re.sub` resumes after the match), which the
worker realizes by skipping the three consumed characters of the lookahead. -/
def sub1 (s : List Char) : List Char := sub1Aux 0 s

/-- Stage 2 of `clean_text`: `re.sub(r'(?<!\n)\n(?!\n)', ' ', text)`.
The lookarounds inspect the original string, so this is a positional map;
`prevNL` records whether the previous original character was `'\n'`. -/
def sub2Aux (prevNL : Bool) : List Char → List Char
  | [] => []
  | c :: rest =>
    (if c = '\n' ∧ prevNL = false ∧ rest.head? ≠ some '\n' then ' ' else c)
      :: sub2Aux (decide (c = '\n')) rest

/-- Stage 2 of `clean_text`, starting at the beginning of the string
(no preceding character). -/
def sub2 (s : List Char) : List Char := sub2Aux false s

/-- Stage 3 of `clean_text`: `re.sub(r' +', ' ', text)` — collapse runs of
spaces, keeping the last space of each run. -/
def collapseSpaces : List Char → List Char
  | [] => []
  | c :: rest =>
    if c = ' ' ∧ rest.head? = some ' ' then collapseSpaces rest
    else c :: collapseSpaces rest

/-- Stage 4 of `clean_text`:
`'\n'.join(line.strip() for line in text.splitlines())`. -/
def stripLines (s : List Char) : List Char :=
  joinNL ((pySplitlines s).map pyStrip)

/-- `clean_text` from `main.py`: the empty guard, the three `re.sub`
rewrites, per-line stripping and a final `strip()`. -/
def cleanText (s : List Char) : List Char :=
  if s = [] then []
  else pyStrip (stripLines (collapseSpaces (sub2 (sub1 s))))

/-! ### Predicates used for the normalizer proofs -/

/-- Every `'\n'` in the string is adjacent to another `'\n'` — no lone
newline survives stage 2; `prevNL` records whether the previous character
was `'\n'`. -/
def lf : Bool → List Char → Bool
  | _, [] => true
  | b, c :: rest =>
    if c = '\n' then (b || decide (rest.head? = some '\n')) && lf true rest
    else lf false rest

/-- No two adjacent spaces — the post-condition of stage 3. -/
def noTwoSpaces (s : List Char) : Prop :=
  List.Chain' (fun a b => ¬(a = ' ' ∧ b = ' ')) s

/-- A line as produced by per-line stripping: newline-free with
non-whitespace first and last characters. -/
def goodLine (l : List Char) : Prop :=
  '\n' ∉ l ∧ (∀ c, l.head? = some c → pyWs c = false) ∧
    (∀ c, l.getLast? = some c → pyWs c = false)

/-- Drop a trailing empty line: `pySplitlines` on `\n`-only input equals
`splitNL` with a trailing empty segment removed. -/
def dropTrailEmpty : List (List Char) → List (List Char)
  | [] => []
  | [l] => if l = [] then [] else [l]
  | l :: ls => l :: dropTrailEmpty ls

/-- Drop the empty lines at both ends of a line list. -/
def trimEmpty (ls : List (List Char)) : List (List Char) :=
  pstrip (fun l => decide (l = [])) ls

/-! ### Per-page OCR (`ocr_single`) -/

/-- The two recognizer configurations appearing in `ocr_single`: the call with
`tessedit_char_whitelist` set, and a call without the character-set
constraint. -/
inductive OcrConfig
  | constrained
  | unconstrained
deriving DecidableEq

/-- `ocr_single` from `extract_text_from_pdf`, abstracted over the recognizer
(`some t` = recognized text, `none` = the recognizer raised): one attempt with
the constrained configuration; on failure the page contributes `""`.  The
second component records which configurations were attempted. -/
def ocr_single (recognize : OcrConfig → Option (List Char)) :
    List Char × List OcrConfig :=
  match recognize OcrConfig.constrained with
  | some t => (t, [OcrConfig.constrained])
  | none => ([], [OcrConfig.constrained])

/-- A recognizer whose constrained-charset call raises and whose
unconstrained call would succeed with `"x"`. -/
def constrainedFailsOracle : OcrConfig → Option (List Char)
  | OcrConfig.constrained => none
  | OcrConfig.unconstrained => some ['x']

/-! ### `extract_text_from_pdf` (the Extraction Engine) -/

/-- How the returned text was obtained (spec provenance tag; in the source it
is the branch that produced the return value). -/
inductive Provenance
  | direct
  | recognized
deriving DecidableEq

/-- Result of one `extract_text_from_pdf` call: the text, which branch
produced it, whether pages were rasterized, and how many page-recognition
tasks ran. -/
structure Outcome where
  text : List Char
  provenance : Provenance
  rasterized : Bool
  ocrPages : Nat
deriving DecidableEq

/-- The aggregation loop `for fut in as_completed(futures): ocr_text += text
+ "\n"`: `pageTexts` are the per-page results (page order), `order` is the
completion order of the worker tasks. -/
def ocrAggregate (pageTexts : List (List Char)) (order : List Nat) : List Char :=
  order.foldl (fun acc i => acc ++ pageTexts.getD i [] ++ ['\n']) []

/-- The webhook's scan check: `is_ocr_needed = not raw.strip()` where `raw`
is the `"\n"`-join of the embedded per-page texts. -/
def detect_is_ocr_needed (embeddedPages : List (List Char)) : Bool :=
  decide (pyStrip (joinNL embeddedPages) = [])

/-- `extract_text_from_pdf`.  `embeddedPages = some ps` means `PyPDF2` read
the per-page embedded texts `ps` (`none` = it raised); `rasterOk` is whether
`convert_from_bytes` succeeded; `pageTexts` are the per-page OCR results and
`order` the completion order of the worker tasks.  Mirrors the source: the
direct path runs only when `is_ocr_needed` is false and returns the cleaned
join when it is non-blank; otherwise the OCR path aggregates in completion
order and returns the cleaned text, or re-raises when rasterization failed. -/
def extract_text_from_pdf (embeddedPages : Option (List (List Char)))
    (is_ocr_needed : Bool) (rasterOk : Bool) (pageTexts : List (List Char))
    (order : List Nat) : Except Unit Outcome :=
  let directResult : Option (List Char) :=
    if is_ocr_needed then none
    else
      match embeddedPages with
      | none => none
      | some ps =>
        if pyStrip (joinNL ps) = [] then none else some (cleanText (joinNL ps))
  match directResult with
  | some t => Except.ok ⟨t, Provenance.direct, false, 0⟩
  | none =>
    if rasterOk then
      Except.ok ⟨cleanText (ocrAggregate pageTexts order), Provenance.recognized,
        true, order.length⟩
    else Except.error ()

/-- The webhook's handling of a returned text (`if not text.strip(): ...`):
blank text becomes a user-visible failure, otherwise the `.txt` is sent. -/
inductive DeliveryAction
  | noTextError
  | sendDocumentResult (t : List Char)
deriving DecidableEq

/-- Lines 947-951 of `main.py`: classify the extraction result. -/
def deliver_result (t : List Char) : DeliveryAction :=
  if pyStrip t = [] then DeliveryAction.noTextError
  else DeliveryAction.sendDocumentResult t

/-! ### Large-scan branching (`telegram_webhook`, document branch) -/

/-- What the document branch does after the scan check. -/
inductive DocAction
  | promptChoice (numPages : Nat)
  | runExtract (isOcr : Bool)
deriving DecidableEq

/-- Lines 917-936: a scan needing OCR with more than 10 pages is stored and
the user is asked to choose; everything else is extracted right away. -/
def handle_document (is_ocr_needed : Bool) (num_pages : Nat) : DocAction :=
  if is_ocr_needed && decide (10 < num_pages) then DocAction.promptChoice num_pages
  else DocAction.runExtract is_ocr_needed

/-- The page range of the `OCR_FIRST_10` callback:
`first_page=1, last_page=min(10, total_pages)`. -/
def ocr_first_10_range (total_pages : Nat) : Nat × Nat := (1, min 10 total_pages)

/-- `range(start, total_pages + 1, 10)` from the `SPLIT_PDF` loop. -/
def split_starts (start total_pages : Nat) : List Nat :=
  if h : start ≤ total_pages then start :: split_starts (start + 10) total_pages
  else []
termination_by total_pages + 1 - start
decreasing_by omega

/-- The chunk ranges issued by `SPLIT_PDF`:
`for start in range(1, total_pages + 1, 10): end = min(start + 9, total_pages)`. -/
def split_chunks (total_pages : Nat) : List (Nat × Nat) :=
  (split_starts 1 total_pages).map (fun s => (s, min (s + 9) total_pages))

/-! ### Page-range resolution in `extract_text_from_pdf` (lines 519-523) -/

/-- `fp = first_page or 1; lp = last_page or max_pages_default;
if lp < fp: fp, lp = lp, fp`. -/
def resolve_page_range (first_page last_page : Option Nat)
    (max_pages_default : Nat) : Nat × Nat :=
  let fp := first_page.getD 1
  let lp := last_page.getD max_pages_default
  if lp < fp then (lp, fp) else (fp, lp)

/-! ### Feedback ledger (`save_feedback`, rating/comment callbacks) -/

/-- One row of the `feedback` table (the key columns are the map key). -/
structure FeedbackRec where
  rating : Option Int
  comment : Option String
deriving DecidableEq

/-- `save_feedback`: `INSERT ... ON CONFLICT(user_id, conversion_id) DO
UPDATE SET rating=COALESCE(excluded.rating, feedback.rating),
comment=COALESCE(excluded.comment, feedback.comment)` — on conflict each
field takes the new value when it is non-null, else keeps the old one. -/
def save_feedback (db : String × String → Option FeedbackRec)
    (user_id conversion_id : String) (rating : Option Int)
    (comment : Option String) : String × String → Option FeedbackRec :=
  fun k =>
    if k = (user_id, conversion_id) then
      match db (user_id, conversion_id) with
      | none => some ⟨rating, comment⟩
      | some old =>
        some ⟨rating.orElse (fun _ => old.rating),
          comment.orElse (fun _ => old.comment)⟩
    else db k

/-- `get_feedback`: look up the row for `(user_id, conversion_id)`. -/
def get_feedback (db : String × String → Option FeedbackRec)
    (user_id conversion_id : String) : Option FeedbackRec :=
  db (user_id, conversion_id)

/-- Python `s.split(sep)` for a one-character separator `sep`: split at every
occurrence of the separator, keeping empty segments (`"".split` gives `[""]`,
`"_".split("_")` gives `["", ""]`). -/
def splitOnChar (sep : Char) : List Char → List (List Char)
  | [] => [[]]
  | c :: rest =>
    if c = sep then [] :: splitOnChar sep rest
    else
      match splitOnChar sep rest with
      | [] => [[c]]
      | l :: ls => (c :: l) :: ls

/-- `int(s)` on a plain digit string: `none` models the `ValueError` raised on
an empty or non-digit string. -/
def pyIntDigits (s : List Char) : Option Int :=
  if s ≠ [] ∧ s.all Char.isDigit then
    some ((s.foldl (fun acc c => 10 * acc + (c.toNat - 48)) 0 : Nat) : Int)
  else none

/-- `int(s)` on an optionally signed digit string (the shapes this program
feeds it: the rating digit spliced into the callback data); any other string
raises, modeled as `none`. -/
def pyInt (s : List Char) : Option Int :=
  match s with
  | [] => none
  | c :: rest =>
    if c = '-' then (pyIntDigits rest).map (fun n => -n)
    else if c = '+' then pyIntDigits rest
    else pyIntDigits (c :: rest)

/-- Line 958: `conversion_id = f"{message_id}_{int(time.time())}"` — every
conversion id the program generates contains an underscore. -/
def make_conversion_id (message_id timestamp : List Char) : List Char :=
  message_id ++ '_' :: timestamp

/-- Lines 166-171 (`build_rating_keyboard`): the rating buttons carry
`callback_data = f"RATE_{r}|{conversion_id}"` (here `['R','A','T','E']` is the
literal prefix of that f-string). -/
def rate_callback_data (r conv : List Char) : List Char :=
  ['R', 'A', 'T', 'E'] ++ '_' :: r ++ '|' :: conv

/-- Line 173: the comment button carries
`callback_data = f"FB_COMMENT|{conversion_id}"`. -/
def fb_callback_data (conv : List Char) : List Char :=
  ['F', 'B', '_', 'C', 'O', 'M', 'M', 'E', 'N', 'T'] ++ '|' :: conv

/-- Lines 603-605: `payload = action.split("_")[1]`;
`rating_str, conv_id = payload.split("|")`; `rating = int(rating_str)`.
`none` models the `IndexError` / unpack `ValueError` / `int` failure caught by
the handler's `except`. Note `split("_")` splits at EVERY underscore, so a
conversion id of the generated form `{message_id}_{timestamp}` is truncated:
only its part before the underscore survives in `conv_id`. -/
def parse_rate_action (action : List Char) : Option (Int × String) :=
  match ((splitOnChar '_' action).drop 1).head? with
  | none => none
  | some payload =>
    match splitOnChar '|' payload with
    | [rating_str, conv_chars] =>
      match pyInt rating_str with
      | none => none
      | some rating => some (rating, String.mk conv_chars)
    | _ => none

/-- Result of the `RATE_` callback handler: the updated table and whether a
rating was stored. -/
structure RateResult where
  db : String × String → Option FeedbackRec
  saved : Bool

/-- The `RATE_` callback (lines 601-619): parse the raw callback data with
`parse_rate_action`; a parse failure is caught by the `except` and writes
nothing; if feedback already exists for `(chat_id, conv_id)` (the PARSED,
possibly truncated id), nothing is written; otherwise a rating in `1..5` is
upserted under the parsed id. -/
def handle_rate (db : String × String → Option FeedbackRec)
    (user_id : String) (action : List Char) : RateResult :=
  match parse_rate_action action with
  | none => ⟨db, false⟩
  | some (rating, conv_id) =>
    if (get_feedback db user_id conv_id).isSome then ⟨db, false⟩
    else if 1 ≤ rating ∧ rating ≤ 5 then
      ⟨save_feedback db user_id conv_id (some rating) none, true⟩
    else ⟨db, false⟩

/-- The `FB_COMMENT` callback (lines 622-634): `conv_id = action.split("|")[1]`
(the FULL conversion id after the bar); a missing segment raises and is caught
(`awaiting` unchanged); if feedback already exists for the pair, the comment
prompt is refused; otherwise the chat is marked as awaiting a comment for that
conversion id. -/
def handle_fb_comment (db : String × String → Option FeedbackRec)
    (awaiting : String → Option String) (user_id : String)
    (action : List Char) : String → Option String :=
  match ((splitOnChar '|' action).drop 1).head? with
  | none => awaiting
  | some conv_chars =>
    if (get_feedback db user_id (String.mk conv_chars)).isSome then awaiting
    else fun x => if x = user_id then some (String.mk conv_chars) else awaiting x

/-- Lines 729-739: a plain text message while the chat is in
`awaiting_comment` pops the stored conversion id and upserts the text as the
comment for that id; otherwise nothing feedback-related happens. -/
def handle_comment_text (db : String × String → Option FeedbackRec)
    (awaiting : String → Option String) (user_id text : String) :
    (String × String → Option FeedbackRec) × (String → Option String) :=
  match awaiting user_id with
  | none => (db, awaiting)
  | some conv =>
    (save_feedback db user_id conv none (some text),
     fun x => if x = user_id then none else awaiting x)

/-! ### Pending large-scan holding area (`pending_files`) -/

/-- One entry of `pending_files`. -/
structure PendingDoc where
  file_bytes : List Nat
  file_name : String
  num_pages : Nat
  created_at : Nat
deriving DecidableEq

/-- Line 919: `pending_files[chat_id] = {...}`. -/
def pending_store (p : Nat → Option PendingDoc) (chat_id : Nat)
    (d : PendingDoc) : Nat → Option PendingDoc :=
  fun x => if x = chat_id then some d else p x

/-- The `OCR_FIRST_10` handler's effect on `pending_files` (lines 648-671):
none — the source deliberately keeps the entry so `SPLIT_PDF` stays
available. -/
def pending_after_first10 (p : Nat → Option PendingDoc) (_chat_id : Nat) :
    Nat → Option PendingDoc :=
  p

/-- The `SPLIT_PDF` handler's effect on `pending_files` (line 701):
`pending_files.pop(chat_id, None)`. -/
def pending_after_split (p : Nat → Option PendingDoc) (chat_id : Nat) :
    Nat → Option PendingDoc :=
  fun x => if x = chat_id then none else p x

/-- A concrete pending document for the counterexample. -/
def samplePending : PendingDoc := ⟨[], "scan.pdf", 25, 0⟩

/-! ### Delivery deduplication (`processed_messages`) -/

/-- `get_message_hash`: the fingerprint is derived from
`str(message_id) + str(date)` (the md5 step is a fixed injective-in-practice
encoding and is dropped from the model). -/
def get_message_hash (message_id date : String) : String := message_id ++ date

/-- `is_message_processed`. -/
def is_message_processed (s : Finset String) (h : String) : Bool :=
  decide (h ∈ s)

/-- `mark_message_processed`: insert, then clear the whole set if its size
exceeds 1000. -/
def mark_message_processed (s : Finset String) (h : String) : Finset String :=
  let s2 := insert h s
  if 1000 < s2.card then ∅ else s2

/-- The webhook's dedup step (lines 716-724): skip an already-seen
fingerprint, otherwise record it and process the message.  Returns whether
the message was processed, and the new seen-set. -/
def webhook_dedup_step (s : Finset String) (h : String) :
    Bool × Finset String :=
  if is_message_processed s h then (false, s)
  else (true, mark_message_processed s h)

/-- `n` successive deliveries of the same fingerprint: total number of times
the message is processed, and the final seen-set. -/
def deliver_times : Nat → Finset String → String → Nat × Finset String
  | 0, s, _ => (0, s)
  | Nat.succ n, s, h =>
    let r := webhook_dedup_step s h
    let rest := deliver_times n r.2 h
    ((if r.1 then 1 else 0) + rest.1, rest.2)

/-- A seen-set holding 1001 distinct one-character fingerprints, used to
exercise the bulk-clear branch. -/
def bigSeen : Finset String :=
  (Finset.range 1001).image (fun k => String.mk [Char.ofNat (48 + k)])

/-! ## Helper lemmas -/

theorem char_toNat_ofNat (n : Nat) (h : n < 55296) : (Char.ofNat n).toNat = n := by
  have hv : n.isValidChar := Or.inl h
  rw [Char.ofNat, dif_pos hv]
  simp [Char.ofNatAux, Char.toNat, UInt32.toNat]

theorem bigSeen_card : bigSeen.card = 1001 := by
  rw [bigSeen, Finset.card_image_of_injOn, Finset.card_range]
  intro a hA b hB hfe
  simp only [Finset.coe_range, Set.mem_Iio] at hA hB
  have ha2 : (Char.ofNat (48 + a)).toNat = 48 + a := char_toNat_ofNat _ (by omega)
  have hb2 : (Char.ofNat (48 + b)).toNat = 48 + b := char_toNat_ofNat _ (by omega)
  have hce : Char.ofNat (48 + a) = Char.ofNat (48 + b) := by
    have := congrArg String.data hfe
    simpa using this
  have h3 := congrArg Char.toNat hce
  rw [ha2, hb2] at h3
  omega

theorem deliver_times_mem (n : Nat) (s : Finset String) (fp : String)
    (hm : fp ∈ s) : deliver_times n s fp = (0, s) := by
  induction n with
  | zero => rfl
  | succ n ih =>
    simp [deliver_times, webhook_dedup_step, is_message_processed, hm, ih]

/-! ## Normalizer lemmas: character classes and generic stripping -/

theorem eq_nl_of_benign_boundary {c : Char} (hb : benign c = true)
    (hB : isLineBoundary c = true) : c = '\n' := by
  simpa [benign, hB] using hb

theorem pyWs_of_boundary {c : Char} (hB : isLineBoundary c = true) :
    pyWs c = true := by
  simp [pyWs, hB]

theorem head?_dropWhile_false {p : α → Bool} {l : List α} {x : α}
    (h : (l.dropWhile p).head? = some x) : p x = false := by
  have h2 := List.head?_dropWhile_not p l
  rw [h] at h2
  exact h2

theorem dropWhile_eq_self_of_head {p : α → Bool} {l : List α}
    (h : ∀ a, l.head? = some a → p a = false) : l.dropWhile p = l := by
  cases l with
  | nil => rfl
  | cons a t =>
    exact List.dropWhile_cons_of_neg (by simp [h a rfl])

theorem mem_pstrip {p : α → Bool} {s : List α} {a : α}
    (h : a ∈ pstrip p s) : a ∈ s := by
  simp only [pstrip, List.mem_reverse] at h
  have hsb : List.Sublist ((s.dropWhile p).reverse.dropWhile p)
      (s.dropWhile p).reverse :=
    List.dropWhile_sublist p
  have h2 := hsb.subset h
  rw [List.mem_reverse] at h2
  exact (List.dropWhile_sublist p).subset h2

theorem pstrip_getLast?_false {p : α → Bool} {s : List α} {a : α}
    (h : (pstrip p s).getLast? = some a) : p a = false := by
  rw [pstrip, List.getLast?_reverse] at h
  exact head?_dropWhile_false h

theorem pstrip_head?_false {p : α → Bool} {s : List α} {a : α}
    (h : (pstrip p s).head? = some a) : p a = false := by
  rw [pstrip, List.head?_reverse] at h
  have hsfx : (s.dropWhile p).reverse.dropWhile p <:+ (s.dropWhile p).reverse :=
    List.dropWhile_suffix p
  obtain ⟨w, hw⟩ := hsfx
  have hne : ((s.dropWhile p).reverse.dropWhile p) ≠ [] := by
    intro he
    rw [he] at h
    exact Option.noConfusion h
  have h3 : ((s.dropWhile p).reverse).getLast? = some a := by
    rw [← hw, List.getLast?_append, h]
    rfl
  rw [List.getLast?_reverse] at h3
  exact head?_dropWhile_false h3

theorem pstrip_eq_self {p : α → Bool} {s : List α}
    (h1 : ∀ a, s.head? = some a → p a = false)
    (h2 : ∀ a, s.getLast? = some a → p a = false) : pstrip p s = s := by
  rw [pstrip, dropWhile_eq_self_of_head h1, dropWhile_eq_self_of_head ?hrev,
    List.reverse_reverse]
  case hrev =>
    intro a ha
    rw [List.head?_reverse] at ha
    exact h2 a ha

theorem pstrip_idem (p : α → Bool) (s : List α) :
    pstrip p (pstrip p s) = pstrip p s :=
  pstrip_eq_self (fun _ ha => pstrip_head?_false ha)
    (fun _ ha => pstrip_getLast?_false ha)

theorem pstrip_nil (p : α → Bool) : pstrip p ([] : List α) = [] := rfl

theorem chain_of_part {R : α → α → Prop} {l l2 : List α}
    (h : List.Chain' R l) (hp : l2 <:+: l) : List.Chain' R l2 :=
  List.Chain'.infix h hp

theorem chain_of_pre {R : α → α → Prop} {l l2 : List α}
    (h : List.Chain' R l) (hp : l2 <+: l) : List.Chain' R l2 :=
  List.Chain'.prefix h hp

theorem pstrip_part (p : α → Bool) (s : List α) : pstrip p s <:+: s := by
  have hsf1 : s.dropWhile p <:+ s := List.dropWhile_suffix p
  have hsf2 : (s.dropWhile p).reverse.dropWhile p <:+ (s.dropWhile p).reverse :=
    List.dropWhile_suffix p
  obtain ⟨v, hv⟩ := hsf1
  obtain ⟨w, hw⟩ := hsf2
  refine ⟨v, w.reverse, ?_⟩
  have ht : ((s.dropWhile p).reverse.dropWhile p).reverse ++ w.reverse
      = s.dropWhile p := by
    rw [← List.reverse_append, hw, List.reverse_reverse]
  calc v ++ pstrip p s ++ w.reverse
      = v ++ (((s.dropWhile p).reverse.dropWhile p).reverse ++ w.reverse) := by
        rw [pstrip, List.append_assoc]
    _ = v ++ s.dropWhile p := by rw [ht]
    _ = s := hv

/-! ## Normalizer lemmas: `joinNL` and `splitNL` -/

theorem joinNL_cons_cons (l l2 : List Char) (ls : List (List Char)) :
    joinNL (l :: l2 :: ls) = l ++ '\n' :: joinNL (l2 :: ls) := rfl

theorem joinNL_cons_of_ne_nil (l : List Char) {ls : List (List Char)}
    (h : ls ≠ []) : joinNL (l :: ls) = l ++ '\n' :: joinNL ls := by
  cases ls with
  | nil => exact absurd rfl h
  | cons l2 ls2 => rfl

theorem splitNL_ne_nil (s : List Char) : splitNL s ≠ [] := by
  cases s with
  | nil => simp [splitNL]
  | cons c rest =>
    rw [splitNL]
    by_cases hc : c = '\n'
    · simp [hc]
    · rw [if_neg hc]
      cases h : splitNL rest <;> simp

theorem joinNL_splitNL (s : List Char) : joinNL (splitNL s) = s := by
  induction s with
  | nil => rfl
  | cons c rest ih =>
    rw [splitNL]
    by_cases hc : c = '\n'
    · rw [if_pos hc, joinNL_cons_of_ne_nil _ (splitNL_ne_nil rest), ih, hc]
      rfl
    · rw [if_neg hc]
      cases h : splitNL rest with
      | nil => exact absurd h (splitNL_ne_nil rest)
      | cons l ls =>
        rw [h] at ih
        cases ls with
        | nil =>
          simp only [joinNL] at ih ⊢
          rw [ih]
        | cons l2 ls2 =>
          rw [joinNL_cons_cons] at ih
          rw [joinNL_cons_cons, List.cons_append, ih]

theorem nl_not_mem_splitNL {s : List Char} {l : List Char}
    (h : l ∈ splitNL s) : '\n' ∉ l := by
  induction s generalizing l with
  | nil =>
    simp [splitNL] at h
    simp [h]
  | cons c rest ih =>
    rw [splitNL] at h
    by_cases hc : c = '\n'
    · rw [if_pos hc] at h
      rcases List.mem_cons.mp h with h1 | h1
      · simp [h1]
      · exact ih h1
    · rw [if_neg hc] at h
      cases hs : splitNL rest with
      | nil => exact absurd hs (splitNL_ne_nil rest)
      | cons l0 ls0 =>
        rw [hs] at h
        rcases List.mem_cons.mp h with h1 | h1
        · subst h1
          intro hmem
          rcases List.mem_cons.mp hmem with h2 | h2
          · exact hc h2.symm
          · exact ih (hs ▸ List.mem_cons_self l0 ls0) h2
        · exact ih (hs ▸ List.mem_cons_of_mem l0 h1)

theorem splitNL_append_nlfree {l : List Char} (hl : '\n' ∉ l) (t : List Char)
    {h0 : List Char} {tl : List (List Char)} (ht : splitNL t = h0 :: tl) :
    splitNL (l ++ t) = (l ++ h0) :: tl := by
  induction l with
  | nil => simpa using ht
  | cons c l' ih =>
    have hc : c ≠ '\n' := fun he => hl (he ▸ List.mem_cons_self c l')
    have hl' : '\n' ∉ l' := fun hm => hl (List.mem_cons_of_mem c hm)
    rw [List.cons_append, splitNL, if_neg hc, ih hl']
    rfl

theorem splitNL_nlfree {l : List Char} (hl : '\n' ∉ l) : splitNL l = [l] := by
  have h := splitNL_append_nlfree hl [] rfl
  simpa using h

theorem splitNL_joinNL {ls : List (List Char)} (hne : ls ≠ [])
    (hfree : ∀ l ∈ ls, '\n' ∉ l) : splitNL (joinNL ls) = ls := by
  induction ls with
  | nil => exact absurd rfl hne
  | cons l ls2 ih =>
    cases ls2 with
    | nil =>
      simpa [joinNL] using splitNL_nlfree (hfree l (List.mem_cons_self l []))
    | cons l2 ls3 =>
      have hrec : splitNL (joinNL (l2 :: ls3)) = l2 :: ls3 :=
        ih (by simp) (fun x hx => hfree x (List.mem_cons_of_mem l hx))
      have hnl : splitNL ('\n' :: joinNL (l2 :: ls3)) = [] :: l2 :: ls3 := by
        rw [splitNL, if_pos rfl, hrec]
      have := splitNL_append_nlfree (hfree l (List.mem_cons_self l _))
        ('\n' :: joinNL (l2 :: ls3)) hnl
      rw [joinNL_cons_cons, this]
      simp

theorem mem_joinNL_of_mem {ls : List (List Char)} {l : List Char} {c : Char}
    (hl : l ∈ ls) (hc : c ∈ l) : c ∈ joinNL ls := by
  induction ls with
  | nil => exact absurd hl (List.not_mem_nil l)
  | cons l0 ls0 ih =>
    rcases List.mem_cons.mp hl with h1 | h1
    · subst h1
      cases ls0 with
      | nil => exact hc
      | cons l2 ls2 =>
        rw [joinNL_cons_cons]
        exact List.mem_append_left _ hc
    · have h2 := ih h1
      have hne : ls0 ≠ [] := by
        intro he
        rw [he] at h1
        exact List.not_mem_nil l h1
      rw [joinNL_cons_of_ne_nil _ hne]
      exact List.mem_append_right _ (List.mem_cons_of_mem _ h2)

theorem mem_joinNL {ls : List (List Char)} {c : Char} (h : c ∈ joinNL ls) :
    (∃ l ∈ ls, c ∈ l) ∨ c = '\n' := by
  induction ls with
  | nil => exact absurd h (List.not_mem_nil c)
  | cons l0 ls0 ih =>
    cases ls0 with
    | nil => exact Or.inl ⟨l0, List.mem_cons_self l0 [], h⟩
    | cons l2 ls2 =>
      rw [joinNL_cons_cons] at h
      rcases List.mem_append.mp h with h1 | h1
      · exact Or.inl ⟨l0, List.mem_cons_self _ _, h1⟩
      · rcases List.mem_cons.mp h1 with h2 | h2
        · exact Or.inr h2
        · rcases ih h2 with ⟨l3, hl3, hc3⟩ | h3
          · exact Or.inl ⟨l3, List.mem_cons_of_mem _ hl3, hc3⟩
          · exact Or.inr h3

theorem mem_of_mem_splitNL {s l : List Char} {c : Char}
    (hl : l ∈ splitNL s) (hc : c ∈ l) : c ∈ s := by
  rw [← joinNL_splitNL s]
  exact mem_joinNL_of_mem hl hc

/-! ## Normalizer lemmas: `pySplitlines` on benign input -/

theorem dropTrailEmpty_cons_of_ne_nil (l : List Char)
    {ls : List (List Char)} (h : ls ≠ []) :
    dropTrailEmpty (l :: ls) = l :: dropTrailEmpty ls := by
  cases ls with
  | nil => exact absurd rfl h
  | cons l2 ls2 => rfl

theorem dropTrailEmpty_eq_self {ls : List (List Char)}
    (h : ls.getLast? ≠ some []) : dropTrailEmpty ls = ls := by
  induction ls with
  | nil => rfl
  | cons l ls2 ih =>
    cases ls2 with
    | nil =>
      have hl : l ≠ [] := by
        intro he
        exact h (by simp [he])
      simp [dropTrailEmpty, hl]
    | cons l2 ls3 =>
      rw [dropTrailEmpty_cons_of_ne_nil _ (by simp), ih]
      rw [List.getLast?_cons_cons] at h
      exact h

theorem pySplitlines_benign {s : List Char} (hb : ∀ c ∈ s, benign c = true) :
    pySplitlines s = dropTrailEmpty (splitNL s) := by
  induction s with
  | nil => rfl
  | cons c rest ih =>
    have hbr : ∀ x ∈ rest, benign x = true :=
      fun x hx => hb x (List.mem_cons_of_mem c hx)
    have ihr : pySplitlines rest = dropTrailEmpty (splitNL rest) := ih hbr
    by_cases hc : c = '\n'
    · subst hc
      have h1 : pySplitlines ('\n' :: rest) = [] :: pySplitlines rest := rfl
      rw [h1, splitNL, if_pos rfl,
        dropTrailEmpty_cons_of_ne_nil _ (splitNL_ne_nil rest), ihr]
    · have hnb : isLineBoundary c = false := by
        by_cases hB : isLineBoundary c = true
        · exact absurd (eq_nl_of_benign_boundary
            (hb c (List.mem_cons_self c rest)) hB) hc
        · simpa using hB
      have h1 : pySplitlines (c :: rest)
          = match pySplitlines rest with
            | [] => [[c]]
            | l :: ls => (c :: l) :: ls := by
        show pySplitlinesAux false (c :: rest) = _
        rw [pySplitlinesAux]
        rw [if_neg (by simp), if_neg (by simp [hnb])]
        rfl
      rw [h1, splitNL, if_neg hc]
      cases hs : splitNL rest with
      | nil => exact absurd hs (splitNL_ne_nil rest)
      | cons l ls =>
        rw [hs] at ihr
        cases ls with
        | nil =>
          by_cases hl : l = []
          · subst hl
            simp [dropTrailEmpty] at ihr ⊢
            rw [ihr]
          · simp [dropTrailEmpty, hl] at ihr ⊢
            rw [ihr]
        | cons l2 ls2 =>
          rw [dropTrailEmpty_cons_of_ne_nil _ (by simp)] at ihr
          rw [ihr]
          show (c :: l) :: dropTrailEmpty (l2 :: ls2)
            = dropTrailEmpty ((c :: l) :: l2 :: ls2)
          exact (dropTrailEmpty_cons_of_ne_nil _ (by simp)).symm

/-! ## Normalizer lemmas: lone-newline-freeness and the rewrite stages -/

theorem lf_cons_of_ne_nl {c : Char} (hc : c ≠ '\n') (b : Bool) (s : List Char) :
    lf b (c :: s) = lf false s := by
  rw [lf, if_neg hc]

theorem lf_cons_nl (b : Bool) (s : List Char) :
    lf b ('\n' :: s) = ((b || decide (s.head? = some '\n')) && lf true s) := by
  rw [lf, if_pos rfl]

theorem lf_of_nlfree {s : List Char} (h : '\n' ∉ s) (b : Bool) :
    lf b s = true := by
  induction s generalizing b with
  | nil => rfl
  | cons c rest ih =>
    have hc : c ≠ '\n' := fun he => h (he ▸ List.mem_cons_self c rest)
    rw [lf_cons_of_ne_nl hc]
    exact ih (fun hm => h (List.mem_cons_of_mem c hm)) false

theorem lf_flag_indep {s : List Char} (h : s.head? ≠ some '\n') (b b2 : Bool) :
    lf b s = lf b2 s := by
  cases s with
  | nil => rfl
  | cons c rest =>
    have hc : c ≠ '\n' := by
      intro he
      exact h (by simp [he])
    rw [lf_cons_of_ne_nl hc, lf_cons_of_ne_nl hc]

theorem lf_true_of_cons {b : Bool} {c : Char} {s : List Char}
    (h : lf b (c :: s) = true) : lf (decide (c = '\n')) s = true := by
  by_cases hc : c = '\n'
  · subst hc
    rw [lf_cons_nl, Bool.and_eq_true] at h
    simpa using h.2
  · rw [lf_cons_of_ne_nl hc] at h
    simpa [hc] using h

theorem ne_nl_of_isAlphaRC {c : Char} (h : isAlphaRC c = true) : c ≠ '\n' := by
  intro he
  subst he
  exact absurd h (by decide)

theorem mem_of_head? {l : List α} {d : α} (h : l.head? = some d) : d ∈ l := by
  cases l with
  | nil => exact Option.noConfusion h
  | cons a t =>
    have : a = d := by simpa using h
    exact this ▸ List.mem_cons_self a t

theorem sub1Aux_zero_cons (a : Char) (rest : List Char) :
    sub1Aux 0 (a :: rest)
      = if isAlphaRC a ∧ rest.head? = some '-' ∧ rest.tail.head? = some '\n' ∧
            rest.tail.tail.head?.any isAlphaRC then
          a :: (rest.tail.tail.head?.getD a) :: sub1Aux 3 rest
        else a :: sub1Aux 0 rest := rfl

theorem sub1Aux_eq_self {s : List Char} : ∀ b, lf b s = true → sub1Aux 0 s = s := by
  induction s with
  | nil => intro b _; rfl
  | cons a rest ih =>
    intro b h
    rw [sub1Aux_zero_cons]
    by_cases hcond : isAlphaRC a ∧ rest.head? = some '-' ∧
        rest.tail.head? = some '\n' ∧ rest.tail.tail.head?.any isAlphaRC
    · exfalso
      obtain ⟨ha, hb1, hb2, hb3⟩ := hcond
      cases rest with
      | nil => exact Option.noConfusion hb1
      | cons x1 r1 =>
        have hx1 : x1 = '-' := by simpa using hb1
        cases r1 with
        | nil => exact Option.noConfusion hb2
        | cons x2 r2 =>
          have hx2 : x2 = '\n' := by simpa using hb2
          cases r2 with
          | nil => simp at hb3
          | cons x3 r3 =>
            have hx3 : isAlphaRC x3 = true := by simpa using hb3
            rw [lf_cons_of_ne_nl (ne_nl_of_isAlphaRC ha)] at h
            subst hx1
            subst hx2
            rw [lf_cons_of_ne_nl (by decide)] at h
            rw [lf_cons_nl, Bool.and_eq_true] at h
            have h1 := h.1
            simp only [Bool.false_or, decide_eq_true_eq] at h1
            have : x3 = '\n' := by simpa using h1
            exact ne_nl_of_isAlphaRC hx3 this
    · rw [if_neg hcond, ih _ (lf_true_of_cons h)]

theorem sub2Aux_cons (b : Bool) (c : Char) (rest : List Char) :
    sub2Aux b (c :: rest)
      = (if c = '\n' ∧ b = false ∧ rest.head? ≠ some '\n' then ' ' else c)
          :: sub2Aux (decide (c = '\n')) rest := rfl

theorem sub2Aux_eq_self {s : List Char} : ∀ b, lf b s = true → sub2Aux b s = s := by
  induction s with
  | nil => intro b _; rfl
  | cons c rest ih =>
    intro b h
    rw [sub2Aux_cons]
    by_cases hc : c = '\n'
    · subst hc
      rw [lf_cons_nl, Bool.and_eq_true] at h
      obtain ⟨h1, h2⟩ := h
      have hng : ¬ ('\n' = '\n' ∧ b = false ∧ rest.head? ≠ some '\n') := by
        intro ⟨_, hb, hh⟩
        rw [Bool.or_eq_true] at h1
        rcases h1 with hb1 | hh1
        · rw [hb] at hb1
          exact Bool.noConfusion hb1
        · exact hh (by simpa using hh1)
      rw [if_neg hng]
      have : sub2Aux (decide ('\n' = '\n')) rest = rest := by
        simpa using ih true h2
      rw [this]
    · rw [if_neg (fun hp => hc hp.1)]
      have hrest : lf false rest = true := by
        rw [lf_cons_of_ne_nl hc] at h
        exact h
      have : sub2Aux (decide (c = '\n')) rest = rest := by
        simpa [hc] using ih false hrest
      rw [this]

theorem sub2Aux_lf : ∀ (s : List Char) (b : Bool), lf b (sub2Aux b s) = true := by
  intro s
  induction s with
  | nil => intro b; rfl
  | cons c rest ih =>
    intro b
    rw [sub2Aux_cons]
    by_cases hc : c = '\n'
    case neg =>
      rw [if_neg (fun hp => hc hp.1),
        show (decide (c = '\n')) = false from by simp [hc],
        lf_cons_of_ne_nl hc]
      exact ih false
    case pos =>
      subst hc
      rw [show (decide (('\n' : Char) = '\n')) = true from by decide]
      by_cases hbf : b = false ∧ rest.head? ≠ some '\n'
      · rw [if_pos ⟨rfl, hbf.1, hbf.2⟩, lf_cons_of_ne_nl (by decide)]
        cases rest with
        | nil => rfl
        | cons c2 r2 =>
          have hc2 : c2 ≠ '\n' := fun he => hbf.2 (by simp [he])
          have h3 := ih true
          rw [sub2Aux_cons] at h3 ⊢
          rw [if_neg (fun hp => Bool.noConfusion hp.2.1)] at h3
          rw [if_neg (fun hp => hc2 hp.1)]
          rw [lf_cons_of_ne_nl hc2] at h3 ⊢
          exact h3
      · rw [if_neg (fun hp => hbf ⟨hp.2.1, hp.2.2⟩), lf_cons_nl,
          Bool.and_eq_true]
        refine ⟨?_, ih true⟩
        by_cases hb : b = true
        · simp [hb]
        · have hb2 : b = false := by
            cases b
            · rfl
            · exact absurd rfl hb
          have hh : rest.head? = some '\n' := by
            by_cases hh2 : rest.head? = some '\n'
            · exact hh2
            · exact absurd ⟨hb2, hh2⟩ hbf
          cases rest with
          | nil => simp at hh
          | cons c2 r2 =>
            have hc2 : c2 = '\n' := by simpa using hh
            subst hc2
            rw [sub2Aux_cons, if_neg (fun hp => Bool.noConfusion hp.2.1)]
            simp

theorem collapseSpaces_cons (c : Char) (rest : List Char) :
    collapseSpaces (c :: rest)
      = if c = ' ' ∧ rest.head? = some ' ' then collapseSpaces rest
        else c :: collapseSpaces rest := rfl

theorem collapse_head_space : ∀ s : List Char,
    (collapseSpaces (' ' :: s)).head? = some ' ' := by
  intro s
  induction s with
  | nil => rfl
  | cons c2 r2 ih =>
    rw [collapseSpaces_cons]
    by_cases h2 : (' ' : Char) = ' ' ∧ (c2 :: r2).head? = some ' '
    · rw [if_pos h2]
      have hc2 : c2 = ' ' := by simpa using h2.2
      subst hc2
      exact ih
    · rw [if_neg h2]
      rfl

theorem collapse_head?_eq (c : Char) (rest : List Char) :
    (collapseSpaces (c :: rest)).head? = some c := by
  by_cases hc : c = ' '
  · subst hc
    exact collapse_head_space rest
  · rw [collapseSpaces_cons, if_neg (fun hp => hc hp.1)]
    rfl

theorem lf_collapse {s : List Char} : ∀ b, lf b s = true →
    lf b (collapseSpaces s) = true := by
  induction s with
  | nil => intro b h; exact h
  | cons c rest ih =>
    intro b h
    rw [collapseSpaces_cons]
    by_cases hcs : c = ' ' ∧ rest.head? = some ' '
    · rw [if_pos hcs]
      have hcnl : c ≠ '\n' := by
        rw [hcs.1]
        decide
      rw [lf_cons_of_ne_nl hcnl] at h
      have h2 := ih false h
      cases hrest : rest with
      | nil =>
        rw [hrest] at hcs
        simp at hcs
      | cons c2 r2 =>
        have hc2 : c2 = ' ' := by
          rw [hrest] at hcs
          simpa using hcs.2
        subst hc2
        rw [hrest] at h2
        rw [lf_flag_indep (by rw [collapse_head?_eq]; simp) b false]
        exact h2
    · rw [if_neg hcs]
      by_cases hc : c = '\n'
      · subst hc
        rw [lf_cons_nl, Bool.and_eq_true] at h
        rw [lf_cons_nl, Bool.and_eq_true]
        refine ⟨?_, ih true h.2⟩
        rw [Bool.or_eq_true] at h ⊢
        rcases h.1 with hb | hh
        · exact Or.inl hb
        · right
          have hh2 : rest.head? = some '\n' := by simpa using hh
          cases rest with
          | nil => simp at hh2
          | cons c2 r2 =>
            have : c2 = '\n' := by simpa using hh2
            subst this
            rw [collapse_head?_eq]
            simp
      · rw [lf_cons_of_ne_nl hc] at h
        rw [lf_cons_of_ne_nl hc]
        exact ih false h

theorem nts_collapse (s : List Char) : noTwoSpaces (collapseSpaces s) := by
  induction s with
  | nil => simp [collapseSpaces, noTwoSpaces]
  | cons c rest ih =>
    rw [collapseSpaces_cons]
    by_cases hcs : c = ' ' ∧ rest.head? = some ' '
    · rw [if_pos hcs]
      exact ih
    · rw [if_neg hcs]
      refine List.chain'_cons'.mpr ⟨?_, ih⟩
      intro y hy
      intro ⟨hc, hy2⟩
      apply hcs
      refine ⟨hc, ?_⟩
      cases rest with
      | nil => simp [collapseSpaces] at hy
      | cons c2 r2 =>
        rw [collapse_head?_eq] at hy
        have : c2 = y := by simpa using hy
        rw [this, hy2]
        rfl

theorem collapse_eq_self {s : List Char} (h : noTwoSpaces s) :
    collapseSpaces s = s := by
  induction s with
  | nil => rfl
  | cons c rest ih =>
    rw [collapseSpaces_cons]
    have h2 : noTwoSpaces rest := List.Chain'.tail h
    rw [if_neg ?hng, ih h2]
    case hng =>
      intro ⟨hc, hh⟩
      cases rest with
      | nil => simp at hh
      | cons c2 r2 =>
        have hc2 : c2 = ' ' := by simpa using hh
        have := List.chain'_cons.mp h
        exact this.1 ⟨hc, hc2⟩

theorem mem_sub1Aux {s : List Char} {c : Char} : ∀ k, c ∈ sub1Aux k s → c ∈ s := by
  induction s with
  | nil =>
    intro k h
    cases k with
    | zero => exact absurd h (List.not_mem_nil c)
    | succ k2 => exact absurd h (List.not_mem_nil c)
  | cons a rest ih =>
    intro k h
    cases k with
    | succ k2 =>
      exact List.mem_cons_of_mem a (ih k2 h)
    | zero =>
      rw [sub1Aux_zero_cons] at h
      by_cases hcond : isAlphaRC a ∧ rest.head? = some '-' ∧
          rest.tail.head? = some '\n' ∧ rest.tail.tail.head?.any isAlphaRC
      · rw [if_pos hcond] at h
        rcases List.mem_cons.mp h with h1 | h1
        · exact h1 ▸ List.mem_cons_self a rest
        · rcases List.mem_cons.mp h1 with h2 | h2
          · obtain ⟨_, _, _, hb3⟩ := hcond
            cases hd : rest.tail.tail.head? with
            | none => rw [hd] at hb3; simp [Option.any] at hb3
            | some d =>
              rw [hd] at h2
              have hdm : d ∈ rest :=
                List.mem_of_mem_tail (List.mem_of_mem_tail (mem_of_head? hd))
              simp only [Option.getD] at h2
              exact List.mem_cons_of_mem a (h2 ▸ hdm)
          · exact List.mem_cons_of_mem a (ih 3 h2)
      · rw [if_neg hcond] at h
        rcases List.mem_cons.mp h with h1 | h1
        · exact h1 ▸ List.mem_cons_self a rest
        · exact List.mem_cons_of_mem a (ih 0 h1)

theorem mem_sub2Aux {s : List Char} {c : Char} :
    ∀ b, c ∈ sub2Aux b s → c ∈ s ∨ c = ' ' := by
  induction s with
  | nil => intro b h; exact absurd h (List.not_mem_nil c)
  | cons x rest ih =>
    intro b h
    rw [sub2Aux_cons] at h
    rcases List.mem_cons.mp h with h1 | h1
    · by_cases hni : x = '\n' ∧ b = false ∧ rest.head? ≠ some '\n'
      · rw [if_pos hni] at h1
        exact Or.inr h1
      · rw [if_neg hni] at h1
        exact Or.inl (h1 ▸ List.mem_cons_self x rest)
    · rcases ih _ h1 with h2 | h2
      · exact Or.inl (List.mem_cons_of_mem x h2)
      · exact Or.inr h2

theorem mem_collapse {s : List Char} {c : Char}
    (h : c ∈ collapseSpaces s) : c ∈ s := by
  induction s with
  | nil => exact absurd h (List.not_mem_nil c)
  | cons x rest ih =>
    rw [collapseSpaces_cons] at h
    by_cases hcs : x = ' ' ∧ rest.head? = some ' '
    · rw [if_pos hcs] at h
      exact List.mem_cons_of_mem x (ih h)
    · rw [if_neg hcs] at h
      rcases List.mem_cons.mp h with h1 | h1
      · exact h1 ▸ List.mem_cons_self x rest
      · exact List.mem_cons_of_mem x (ih h1)

theorem lf_append_nlfree {l : List Char} (hl : '\n' ∉ l) (hne : l ≠ []) :
    ∀ (b : Bool) (t : List Char), lf b (l ++ t) = lf false t := by
  induction l with
  | nil => exact absurd rfl hne
  | cons a l2 ih =>
    intro b t
    have ha : a ≠ '\n' := fun he => hl (he ▸ List.mem_cons_self a l2)
    rw [List.cons_append, lf_cons_of_ne_nl ha]
    cases l2 with
    | nil => rfl
    | cons x xs =>
      exact ih (fun hm => hl (List.mem_cons_of_mem a hm)) (by simp) false t

theorem chain_empty_splitNL {s : List Char} : ∀ b, lf b s = true →
    List.Chain' (fun a c => a = [] ∨ c = []) (splitNL s) := by
  induction s with
  | nil =>
    intro b _
    simp [splitNL]
  | cons c rest ih =>
    intro b h
    by_cases hc : c = '\n'
    · subst hc
      rw [splitNL, if_pos rfl]
      rw [lf_cons_nl, Bool.and_eq_true] at h
      exact List.chain'_cons'.mpr ⟨fun y _ => Or.inl rfl, ih true h.2⟩
    · rw [splitNL, if_neg hc]
      rw [lf_cons_of_ne_nl hc] at h
      have ihr := ih false h
      cases hs : splitNL rest with
      | nil => exact absurd hs (splitNL_ne_nil rest)
      | cons l ls =>
        rw [hs] at ihr
        refine List.chain'_cons'.mpr ⟨?_, (List.chain'_cons'.mp ihr).2⟩
        intro y hy
        right
        by_cases hl : l = []
        · subst hl
          cases rest with
          | nil =>
            rw [show splitNL ([] : List Char) = [[]] from rfl] at hs
            injection hs with _ h2
            rw [← h2] at hy
            simp at hy
          | cons d rest2 =>
            by_cases hd : d = '\n'
            · subst hd
              rw [lf_cons_nl, Bool.and_eq_true] at h
              have h1 := h.1
              simp only [Bool.false_or, decide_eq_true_eq] at h1
              cases rest2 with
              | nil => simp at h1
              | cons e rest3 =>
                have he : e = '\n' := by simpa using h1
                subst he
                rw [splitNL, if_pos rfl] at hs
                injection hs with _ h2
                rw [splitNL, if_pos rfl] at h2
                rw [← h2] at hy
                simpa using hy
            · rw [splitNL, if_neg hd] at hs
              cases hs2 : splitNL rest2 with
              | nil => exact absurd hs2 (splitNL_ne_nil rest2)
              | cons l0 ls0 =>
                rw [hs2] at hs
                injection hs with h1 _
                exact absurd h1 (by simp)
        · have h3 := (List.chain'_cons'.mp ihr).1 y hy
          rcases h3 with h1 | h1
          · exact absurd h1 hl
          · exact h1

theorem lf_joinNL : ∀ (ls : List (List Char)), (∀ l ∈ ls, '\n' ∉ l) →
    ls.getLast? ≠ some [] →
    List.Chain' (fun a c => a = [] ∨ c = []) ls →
    ∀ b, (ls.head? = some [] → b = true) → lf b (joinNL ls) = true := by
  intro ls
  induction ls with
  | nil => intro _ _ _ b _; rfl
  | cons l ls2 ih =>
    intro hfree hlast hchain b hhead
    cases ls2 with
    | nil => exact lf_of_nlfree (hfree l (List.mem_cons_self l [])) b
    | cons l2 ls3 =>
      rw [joinNL_cons_cons]
      have hlast2 : (l2 :: ls3).getLast? ≠ some [] := by
        rw [List.getLast?_cons_cons] at hlast
        exact hlast
      have hfree2 : ∀ x ∈ l2 :: ls3, '\n' ∉ x :=
        fun x hx => hfree x (List.mem_cons_of_mem l hx)
      by_cases hl : l = []
      · subst hl
        have hb : b = true := hhead rfl
        subst hb
        rw [List.nil_append, lf_cons_nl, Bool.and_eq_true]
        refine ⟨by simp, ?_⟩
        exact ih hfree2 hlast2 (List.Chain'.tail hchain) true (fun _ => rfl)
      · rw [lf_append_nlfree (hfree l (List.mem_cons_self l _)) hl,
          lf_cons_nl, Bool.and_eq_true]
        constructor
        · have hl2 : l2 = [] := by
            have h3 := (List.chain'_cons'.mp hchain).1 l2 (by simp)
            rcases h3 with h1 | h1
            · exact absurd h1 hl
            · exact h1
          subst hl2
          cases ls3 with
          | nil => exact absurd (by simp) hlast
          | cons l3 ls4 =>
            rw [joinNL_cons_cons, List.nil_append]
            simp
        · exact ih hfree2 hlast2 (List.Chain'.tail hchain) true (fun _ => rfl)

theorem nts_joinNL : ∀ {ls : List (List Char)}, (∀ l ∈ ls, '\n' ∉ l) →
    (∀ l ∈ ls, noTwoSpaces l) → noTwoSpaces (joinNL ls) := by
  intro ls
  induction ls with
  | nil =>
    intro _ _
    simp [joinNL, noTwoSpaces]
  | cons l ls2 ih =>
    intro hfree hnts
    cases ls2 with
    | nil => exact hnts l (List.mem_cons_self l [])
    | cons l2 ls3 =>
      rw [joinNL_cons_cons]
      apply List.chain'_append.mpr
      refine ⟨hnts l (List.mem_cons_self l _), ?_, ?_⟩
      · refine List.chain'_cons'.mpr ⟨?_, ?_⟩
        · intro y _ hp
          exact absurd hp.1 (by decide)
        · exact ih (fun x hx => hfree x (List.mem_cons_of_mem l hx))
            (fun x hx => hnts x (List.mem_cons_of_mem l hx))
      · intro x _ y hy
        have hy2 : y = '\n' := by
          have h4 : '\n' = y := by simpa using hy
          exact h4.symm
        intro hp
        rw [hy2] at hp
        exact absurd hp.2 (by decide)

theorem splitNL_head_pre : ∀ {s : List Char} {h : List Char}
    {tl : List (List Char)}, splitNL s = h :: tl → h <+: s := by
  intro s
  induction s with
  | nil =>
    intro h tl hs
    rw [show splitNL ([] : List Char) = [[]] from rfl] at hs
    injection hs with h1 _
    rw [← h1]
  | cons c rest ih =>
    intro h tl hs
    by_cases hc : c = '\n'
    · rw [splitNL, if_pos hc] at hs
      injection hs with h1 _
      rw [← h1]
      exact List.nil_prefix
    · rw [splitNL, if_neg hc] at hs
      cases hs2 : splitNL rest with
      | nil => exact absurd hs2 (splitNL_ne_nil rest)
      | cons l0 ls0 =>
        rw [hs2] at hs
        injection hs with h1 _
        rw [← h1]
        obtain ⟨t, ht⟩ := ih hs2
        exact ⟨t, by rw [List.cons_append, ht]⟩

theorem mem_splitNL_part : ∀ {s l : List Char}, l ∈ splitNL s → l <:+: s := by
  intro s
  induction s with
  | nil =>
    intro l hl
    rw [show splitNL ([] : List Char) = [[]] from rfl] at hl
    have : l = [] := by simpa using hl
    rw [this]
  | cons c rest ih =>
    intro l hl
    by_cases hc : c = '\n'
    · rw [splitNL, if_pos hc] at hl
      rcases List.mem_cons.mp hl with h1 | h1
      · rw [h1]
        exact List.nil_infix
      · exact (ih h1).trans (List.infix_cons (List.infix_refl rest))
    · rw [splitNL, if_neg hc] at hl
      cases hs : splitNL rest with
      | nil => exact absurd hs (splitNL_ne_nil rest)
      | cons l0 ls0 =>
        rw [hs] at hl
        rcases List.mem_cons.mp hl with h1 | h1
        · rw [h1]
          obtain ⟨t, ht⟩ := splitNL_head_pre hs
          exact ⟨[], t, by rw [List.nil_append, List.cons_append, ht]⟩
        · have h2 : l ∈ splitNL rest := hs ▸ List.mem_cons_of_mem l0 h1
          exact (ih h2).trans (List.infix_cons (List.infix_refl rest))

theorem mem_dropTrailEmpty {ls : List (List Char)} {l : List Char}
    (h : l ∈ dropTrailEmpty ls) : l ∈ ls := by
  induction ls with
  | nil => exact absurd h (List.not_mem_nil l)
  | cons l0 ls2 ih =>
    cases ls2 with
    | nil =>
      by_cases h0 : l0 = []
      · simp [dropTrailEmpty, h0] at h
      · simp [dropTrailEmpty, h0] at h
        simp [h]
    | cons l2 ls3 =>
      rw [dropTrailEmpty_cons_of_ne_nil _ (by simp)] at h
      rcases List.mem_cons.mp h with h1 | h1
      · exact h1 ▸ List.mem_cons_self l0 _
      · exact List.mem_cons_of_mem l0 (ih h1)

theorem dropTrailEmpty_pre : ∀ ls : List (List Char),
    dropTrailEmpty ls <+: ls := by
  intro ls
  induction ls with
  | nil => exact List.nil_prefix
  | cons l0 ls2 ih =>
    cases ls2 with
    | nil =>
      by_cases h0 : l0 = []
      · simp [dropTrailEmpty, h0]
      · simp [dropTrailEmpty, h0]
    | cons l2 ls3 =>
      rw [dropTrailEmpty_cons_of_ne_nil _ (by simp)]
      obtain ⟨t, ht⟩ := ih
      exact ⟨t, by rw [List.cons_append, ht]⟩

theorem joinNL_ne_nil_of_head {l0 : List Char} {rest : List (List Char)}
    (h : l0 ≠ []) : joinNL (l0 :: rest) ≠ [] := by
  cases rest with
  | nil => exact h
  | cons l2 ls3 =>
    rw [joinNL_cons_cons]
    intro he
    rcases List.append_eq_nil.mp he with ⟨h1, _⟩
    exact h h1

theorem dropWhile_ws_joinNL : ∀ {ms : List (List Char)},
    (∀ l ∈ ms, ∀ c, l.head? = some c → pyWs c = false) →
    (joinNL ms).dropWhile pyWs
      = joinNL (ms.dropWhile (fun l => decide (l = []))) := by
  intro ms
  induction ms with
  | nil => intro _; rfl
  | cons l ls ih =>
    intro hhead
    have hhead2 : ∀ x ∈ ls, ∀ c, x.head? = some c → pyWs c = false :=
      fun x hx => hhead x (List.mem_cons_of_mem l hx)
    by_cases hl : l = []
    · subst hl
      cases ls with
      | nil => rfl
      | cons l2 ls2 =>
        rw [joinNL_cons_cons, List.nil_append,
          List.dropWhile_cons_of_pos (by decide : pyWs '\n' = true),
          show List.dropWhile (fun l => decide (l = [])) ([] :: l2 :: ls2)
            = List.dropWhile (fun l => decide (l = [])) (l2 :: ls2) from
            List.dropWhile_cons_of_pos (by simp)]
        exact ih hhead2
    · cases l with
      | nil => exact absurd rfl hl
      | cons a l2 =>
        have ha : pyWs a = false := hhead _ (List.mem_cons_self _ _) a rfl
        cases ls with
        | nil =>
          show (a :: l2).dropWhile pyWs = joinNL (((a :: l2) :: []).dropWhile _)
          rw [List.dropWhile_cons_of_neg (by simp [ha]),
            List.dropWhile_cons_of_neg (by simp)]
          rfl
        | cons l3 ls3 =>
          rw [joinNL_cons_cons, List.cons_append,
            List.dropWhile_cons_of_neg (by simp [ha]),
            List.dropWhile_cons_of_neg (by simp), joinNL_cons_cons]
          rfl

theorem joinNL_append_singleton (xs : List (List Char)) (y : List Char) :
    joinNL (xs ++ [y]) = if xs = [] then y else joinNL xs ++ '\n' :: y := by
  induction xs with
  | nil => simp [joinNL]
  | cons l xs2 ih =>
    rw [List.cons_append, joinNL_cons_of_ne_nil _ (by simp), ih]
    by_cases h2 : xs2 = []
    · subst h2
      simp [joinNL]
    · rw [if_neg h2, if_neg (by simp : ¬ (l :: xs2 = [])),
        joinNL_cons_of_ne_nil _ h2]
      simp

theorem reverse_joinNL : ∀ ls : List (List Char),
    (joinNL ls).reverse = joinNL ((ls.map List.reverse).reverse) := by
  intro ls
  induction ls with
  | nil => rfl
  | cons l ls2 ih =>
    cases ls2 with
    | nil => simp [joinNL]
    | cons l2 ls3 =>
      have hA : ((l2 :: ls3).map List.reverse).reverse ≠ [] := by simp
      calc (joinNL (l :: l2 :: ls3)).reverse
          = ((joinNL (l2 :: ls3)).reverse ++ ['\n']) ++ l.reverse := by
            rw [joinNL_cons_cons, List.reverse_append, List.reverse_cons]
        _ = joinNL (((l2 :: ls3).map List.reverse).reverse)
              ++ '\n' :: l.reverse := by
            rw [ih, List.append_assoc]
            rfl
        _ = joinNL ((((l2 :: ls3).map List.reverse).reverse) ++ [l.reverse]) := by
            rw [joinNL_append_singleton, if_neg hA]
        _ = joinNL (((l :: l2 :: ls3).map List.reverse).reverse) := by
            simp [List.append_assoc]

theorem pyStrip_joinNL {ms : List (List Char)}
    (hgood : ∀ l ∈ ms, goodLine l) :
    pyStrip (joinNL ms) = joinNL (trimEmpty ms) := by
  have hhead : ∀ l ∈ ms, ∀ c, l.head? = some c → pyWs c = false :=
    fun l hl => (hgood l hl).2.1
  have s1 : (joinNL ms).dropWhile pyWs
      = joinNL (ms.dropWhile (fun l => decide (l = []))) :=
    dropWhile_ws_joinNL hhead
  set ms1 := ms.dropWhile (fun l => decide (l = [])) with hms1
  have hms1sub : ∀ l ∈ ms1, l ∈ ms :=
    fun l hl => (List.dropWhile_sublist _).subset hl
  have hhead2 : ∀ l ∈ (ms1.map List.reverse).reverse,
      ∀ c, l.head? = some c → pyWs c = false := by
    intro l hl c hc
    rw [List.mem_reverse, List.mem_map] at hl
    obtain ⟨x, hx, rfl⟩ := hl
    rw [List.head?_reverse] at hc
    exact (hgood x (hms1sub x hx)).2.2 c hc
  have hfun : ((fun l : List Char => decide (l = [])) ∘ List.reverse)
      = (fun l : List Char => decide (l = [])) := by
    funext l
    simp
  have s3 : (joinNL ((ms1.map List.reverse).reverse)).dropWhile pyWs
      = joinNL (((ms1.map List.reverse).reverse).dropWhile
          (fun l => decide (l = []))) :=
    dropWhile_ws_joinNL hhead2
  have s4 : ((ms1.map List.reverse).reverse).dropWhile (fun l => decide (l = []))
      = (ms1.reverse.dropWhile (fun l => decide (l = []))).map List.reverse := by
    rw [← List.map_reverse, List.dropWhile_map, hfun]
  calc pyStrip (joinNL ms)
      = ((joinNL ms1).reverse.dropWhile pyWs).reverse := by
        rw [pyStrip, pstrip, s1]
    _ = ((joinNL ((ms1.map List.reverse).reverse)).dropWhile pyWs).reverse := by
        rw [reverse_joinNL]
    _ = (joinNL (((ms1.map List.reverse).reverse).dropWhile
          (fun l => decide (l = [])))).reverse := by rw [s3]
    _ = (joinNL ((ms1.reverse.dropWhile
          (fun l => decide (l = []))).map List.reverse)).reverse := by rw [s4]
    _ = joinNL ((((ms1.reverse.dropWhile (fun l => decide (l = []))).map
          List.reverse).map List.reverse).reverse) := by rw [reverse_joinNL]
    _ = joinNL ((ms1.reverse.dropWhile (fun l => decide (l = []))).reverse) := by
        rw [List.map_map,
          show (List.reverse ∘ List.reverse : List Char → List Char) = id from
            funext (fun l => List.reverse_reverse l),
          List.map_id]
    _ = joinNL (trimEmpty ms) := by rw [trimEmpty, pstrip, hms1]

theorem cleanText_fixed_core (Y : List Char)
    (hYlf : lf false Y = true) (hYnts : noTwoSpaces Y)
    (hYben : ∀ c ∈ Y, benign c = true) :
    cleanText (pyStrip (joinNL ((pySplitlines Y).map pyStrip)))
      = pyStrip (joinNL ((pySplitlines Y).map pyStrip)) := by
  set ms := (pySplitlines Y).map pyStrip with hms
  have hmsmem : ∀ l ∈ ms, ∃ x ∈ splitNL Y, l = pyStrip x := by
    intro l hl
    rw [hms] at hl
    obtain ⟨x, hx, hxe⟩ := List.mem_map.mp hl
    rw [pySplitlines_benign hYben] at hx
    exact ⟨x, mem_dropTrailEmpty hx, hxe.symm⟩
  have hgood_ms : ∀ l ∈ ms, goodLine l := by
    intro l hl
    obtain ⟨x, hx, hle⟩ := hmsmem l hl
    subst hle
    exact ⟨fun hm => nl_not_mem_splitNL hx (mem_pstrip hm),
      fun c hc => pstrip_head?_false hc,
      fun c hc => pstrip_getLast?_false hc⟩
  have hnts_ms : ∀ l ∈ ms, noTwoSpaces l := by
    intro l hl
    obtain ⟨x, hx, hle⟩ := hmsmem l hl
    subst hle
    exact chain_of_part (chain_of_part hYnts (mem_splitNL_part hx))
      (pstrip_part pyWs x)
  have hfix_ms : ∀ l ∈ ms, pyStrip l = l := by
    intro l hl
    obtain ⟨x, _, hle⟩ := hmsmem l hl
    subst hle
    exact pstrip_idem pyWs x
  have hchain_ms : List.Chain' (fun a c => a = [] ∨ c = []) ms := by
    have h0 : List.Chain' (fun a c => a = [] ∨ c = []) (splitNL Y) :=
      chain_empty_splitNL false hYlf
    have h1 : List.Chain' (fun a c => a = [] ∨ c = [])
        (dropTrailEmpty (splitNL Y)) :=
      chain_of_pre h0 (dropTrailEmpty_pre _)
    have h2 : List.Chain' (fun a c => pyStrip a = [] ∨ pyStrip c = [])
        (dropTrailEmpty (splitNL Y)) := by
      refine h1.imp (fun a c hac => ?_)
      rcases hac with h | h
      · left
        rw [h]
        rfl
      · right
        rw [h]
        rfl
    have hmseq : ms = (dropTrailEmpty (splitNL Y)).map pyStrip := by
      rw [hms, pySplitlines_benign hYben]
    rw [hmseq]
    exact (List.chain'_map pyStrip).mpr h2
  rw [pyStrip_joinNL hgood_ms]
  set L := trimEmpty ms with hL
  have hLsub : ∀ l ∈ L, l ∈ ms := by
    intro l hl
    rw [hL] at hl
    exact mem_pstrip hl
  by_cases hLnil : L = []
  · rw [hLnil]
    rfl
  · have hheadL : L.head? ≠ some [] := by
      intro hh
      have h2 := pstrip_head?_false (hL ▸ hh)
      simp at h2
    have hlastL : L.getLast? ≠ some [] := by
      intro hh
      have h2 := pstrip_getLast?_false (hL ▸ hh)
      simp at h2
    have hfreeL : ∀ l ∈ L, '\n' ∉ l :=
      fun l hl => (hgood_ms l (hLsub l hl)).1
    have hntsL : ∀ l ∈ L, noTwoSpaces l :=
      fun l hl => hnts_ms l (hLsub l hl)
    have hchainL : List.Chain' (fun a c => a = [] ∨ c = []) L :=
      chain_of_part hchain_ms (hL ▸ pstrip_part _ ms)
    obtain ⟨l0, lsr, hLs⟩ : ∃ l0 lsr, L = l0 :: lsr := by
      cases hc : L with
      | nil => exact absurd hc hLnil
      | cons a b => exact ⟨a, b, rfl⟩
    have hl0 : l0 ≠ [] := by
      intro he
      exact hheadL (by rw [hLs, he]; rfl)
    have hOlf : lf false (joinNL L) = true :=
      lf_joinNL L hfreeL hlastL hchainL false (fun hh => absurd hh hheadL)
    have hOnts : noTwoSpaces (joinNL L) := nts_joinNL hfreeL hntsL
    have hOben : ∀ c ∈ joinNL L, benign c = true := by
      intro c hc
      rcases mem_joinNL hc with ⟨l, hl, hcl⟩ | hcn
      · obtain ⟨x, hx, hle⟩ := hmsmem l (hLsub l hl)
        subst hle
        exact hYben c (mem_of_mem_splitNL hx (mem_pstrip hcl))
      · rw [hcn]
        decide
    have hOne : joinNL L ≠ [] := by
      rw [hLs]
      exact joinNL_ne_nil_of_head hl0
    have hsplitO : splitNL (joinNL L) = L :=
      splitNL_joinNL (by rw [hLs]; simp) hfreeL
    have hmapfix : L.map pyStrip = L := by
      rw [List.map_congr_left (fun l hl => hfix_ms l (hLsub l hl))]
      exact List.map_id L
    have hfixJ : pyStrip (joinNL L) = joinNL L := by
      have h5 : pyStrip (joinNL ms) = joinNL L := by
        rw [pyStrip_joinNL hgood_ms, hL]
      calc pyStrip (joinNL L) = pyStrip (pyStrip (joinNL ms)) := by rw [h5]
        _ = pyStrip (joinNL ms) := pstrip_idem pyWs (joinNL ms)
        _ = joinNL L := h5
    have hSL : stripLines (joinNL L) = joinNL L := by
      have h6 : stripLines (joinNL L)
          = joinNL ((pySplitlines (joinNL L)).map pyStrip) := rfl
      rw [h6, pySplitlines_benign hOben, hsplitO,
        dropTrailEmpty_eq_self hlastL, hmapfix]
    rw [cleanText, if_neg hOne,
      show sub1 (joinNL L) = joinNL L from sub1Aux_eq_self false hOlf,
      show sub2 (joinNL L) = joinNL L from sub2Aux_eq_self false hOlf,
      collapse_eq_self hOnts, hSL, hfixJ]

theorem split_starts_eq (total : Nat) :
    ∀ j, split_starts (10 * j + 1) total
      = (List.range' j ((total + 9) / 10 - j)).map (fun k => 10 * k + 1) := by
  suffices hs : ∀ n j, (total + 9) / 10 - j = n →
      split_starts (10 * j + 1) total
        = (List.range' j n).map (fun k => 10 * k + 1) by
    intro j
    exact hs _ j rfl
  intro n
  induction n with
  | zero =>
    intro j hj
    have hgt : ¬ (10 * j + 1 ≤ total) := by omega
    rw [split_starts, dif_neg hgt]
    simp
  | succ n ih =>
    intro j hj
    have hle : 10 * j + 1 ≤ total := by omega
    rw [split_starts, dif_pos hle]
    have h2 : 10 * j + 1 + 10 = 10 * (j + 1) + 1 := by ring
    rw [h2, ih (j + 1) (by omega), List.range'_succ]
    simp

theorem split_chunks_eq (total : Nat) :
    split_chunks total
      = (List.range ((total + 9) / 10)).map
          (fun k => (10 * k + 1, min (10 * k + 10) total)) := by
  have h1 : split_starts 1 total
      = (List.range' 0 ((total + 9) / 10)).map (fun k => 10 * k + 1) := by
    simpa using split_starts_eq total 0
  rw [split_chunks, h1, List.map_map, List.range_eq_range']
  apply List.map_congr_left
  intro k _
  simp only [Function.comp]

/-! ## Claim theorems -/

/-- C1: the claim says the aggregated OCR text equals the concatenation of
the per-page texts in ascending page index regardless of completion order.
The aggregation loop appends in `as_completed` (completion) order, so for the
two-page document with texts `A`, `B` and the legitimate completion order
"page 2 first" the aggregate is `B\nA\n`, not the ascending `A\nB\n`. -/
theorem c1_aggregation_follows_completion_order :
    List.Perm [1, 0] [0, 1] ∧
    ocrAggregate [['A'], ['B']] [1, 0] = ['B', '\n', 'A', '\n'] ∧
    ocrAggregate [['A'], ['B']] [0, 1] = ['A', '\n', 'B', '\n'] ∧
    ocrAggregate [['A'], ['B']] [1, 0] ≠ ocrAggregate [['A'], ['B']] [0, 1] := by
  refine ⟨List.Perm.swap 0 1 [], by decide, by decide, by decide⟩

/-- C2 counterexample: the upsert of `save_feedback` does not fill only null
fields — writing rating 2 over an existing rating 4 for the same
`(requester, conversionId)` pair replaces it, because the `COALESCE` in the
source prefers `excluded` (the new row) over the stored row. -/
theorem c2_counterexample_upsert_overwrites :
    (save_feedback (fun _ => none) "u" "c" (some 4) none) ("u", "c")
      = some ⟨some 4, none⟩ ∧
    (save_feedback (save_feedback (fun _ => none) "u" "c" (some 4) none)
        "u" "c" (some 2) none) ("u", "c") = some ⟨some 2, none⟩ := by
  constructor <;> decide

/-- A string without the separator splits into the single segment itself. -/
theorem splitOnChar_nosep (sep : Char) (a : List Char)
    (h : ∀ c ∈ a, c ≠ sep) : splitOnChar sep a = [a] := by
  induction a with
  | nil => rfl
  | cons c rest ih =>
    have hc : c ≠ sep := h c (List.mem_cons_self c rest)
    have hrest : ∀ x ∈ rest, x ≠ sep := fun x hx => h x (List.mem_cons_of_mem c hx)
    rw [splitOnChar, if_neg hc, ih hrest]

/-- Splitting at the first separator occurrence peels off the leading
separator-free segment. -/
theorem splitOnChar_sep_append (sep : Char) (a b : List Char)
    (h : ∀ c ∈ a, c ≠ sep) :
    splitOnChar sep (a ++ sep :: b) = a :: splitOnChar sep b := by
  induction a with
  | nil =>
    show splitOnChar sep (sep :: b) = [] :: splitOnChar sep b
    rw [splitOnChar, if_pos rfl]
  | cons c rest ih =>
    have hc : c ≠ sep := h c (List.mem_cons_self c rest)
    have hrest : ∀ x ∈ rest, x ≠ sep := fun x hx => h x (List.mem_cons_of_mem c hx)
    show splitOnChar sep (c :: (rest ++ sep :: b)) = (c :: rest) :: splitOnChar sep b
    rw [splitOnChar, if_neg hc, ih hrest]

/-- C2 (amended): the `RATE_` callback parses the conversion id as
`action.split("_")[1]`, which truncates the generated
`{message_id}_{timestamp}` id at its first underscore, so the rating is
stored under the TRUNCATED key. A second rating for the same conversion is
still rejected (its guard checks the same truncated key), but the
`FB_COMMENT` guard checks the FULL id, so the comment prompt after a stored
rating is not refused, and rating-then-comment yields two feedback records:
the rating under the truncated id and the comment under the full id. -/
theorem c2_feedback_ledger
    (db : String × String → Option FeedbackRec)
    (aw : String → Option String)
    (u text : String) (mid ts r : List Char) (rating : Int)
    (hmid : ∀ c ∈ mid, c ≠ '_' ∧ c ≠ '|')
    (hts : ∀ c ∈ ts, c ≠ '_' ∧ c ≠ '|')
    (hr : ∀ c ∈ r, c ≠ '_' ∧ c ≠ '|')
    (hint : pyInt r = some rating)
    (hlo : 1 ≤ rating) (hhi : rating ≤ 5)
    (h0 : db (u, String.mk mid) = none)
    (h1 : db (u, String.mk (make_conversion_id mid ts)) = none) :
    (handle_rate db u (rate_callback_data r (make_conversion_id mid ts))).saved
        = true ∧
    (handle_rate db u (rate_callback_data r (make_conversion_id mid ts))).db
        (u, String.mk mid) = some ⟨some rating, none⟩ ∧
    (handle_rate db u (rate_callback_data r (make_conversion_id mid ts))).db
        (u, String.mk (make_conversion_id mid ts)) = none ∧
    handle_rate
        (handle_rate db u (rate_callback_data r (make_conversion_id mid ts))).db
        u (rate_callback_data r (make_conversion_id mid ts))
      = ⟨(handle_rate db u (rate_callback_data r (make_conversion_id mid ts))).db,
          false⟩ ∧
    handle_fb_comment
        (handle_rate db u (rate_callback_data r (make_conversion_id mid ts))).db
        aw u (fb_callback_data (make_conversion_id mid ts)) u
      = some (String.mk (make_conversion_id mid ts)) ∧
    (handle_comment_text
        (handle_rate db u (rate_callback_data r (make_conversion_id mid ts))).db
        (handle_fb_comment
          (handle_rate db u (rate_callback_data r (make_conversion_id mid ts))).db
          aw u (fb_callback_data (make_conversion_id mid ts)))
        u text).1 (u, String.mk (make_conversion_id mid ts))
      = some ⟨none, some text⟩ ∧
    (handle_comment_text
        (handle_rate db u (rate_callback_data r (make_conversion_id mid ts))).db
        (handle_fb_comment
          (handle_rate db u (rate_callback_data r (make_conversion_id mid ts))).db
          aw u (fb_callback_data (make_conversion_id mid ts)))
        u text).1 (u, String.mk mid) = some ⟨some rating, none⟩ := by
  have hRATE : ∀ c ∈ ['R', 'A', 'T', 'E'], c ≠ '_' := by decide
  have hFB : ∀ c ∈ ['F', 'B', '_', 'C', 'O', 'M', 'M', 'E', 'N', 'T'],
      c ≠ '|' := by decide
  have hpay : ∀ c ∈ r ++ '|' :: mid, c ≠ '_' := by
    intro c hc
    rcases List.mem_append.mp hc with h | h
    · exact (hr c h).1
    · rcases List.mem_cons.mp h with h | h
      · rw [h]; decide
      · exact (hmid c h).1
  have hts1 : ∀ c ∈ ts, c ≠ '_' := fun c hc => (hts c hc).1
  have hconvp : ∀ c ∈ make_conversion_id mid ts, c ≠ '|' := by
    intro c hc
    unfold make_conversion_id at hc
    rcases List.mem_append.mp hc with h | h
    · exact (hmid c h).2
    · rcases List.mem_cons.mp h with h | h
      · rw [h]; decide
      · exact (hts c h).2
  have hrp : ∀ c ∈ r, c ≠ '|' := fun c hc => (hr c hc).2
  have hmidp : ∀ c ∈ mid, c ≠ '|' := fun c hc => (hmid c hc).2
  have hlist : make_conversion_id mid ts ≠ mid := by
    unfold make_conversion_id
    intro h
    have hlen := congrArg List.length h
    simp at hlen
  have hne : String.mk (make_conversion_id mid ts) ≠ String.mk mid :=
    fun h => hlist (congrArg String.data h)
  have e1 : rate_callback_data r (make_conversion_id mid ts)
      = ['R', 'A', 'T', 'E'] ++ '_' :: ((r ++ '|' :: mid) ++ '_' :: ts) := by
    unfold rate_callback_data make_conversion_id
    simp
  have hsplit1 : splitOnChar '_' (rate_callback_data r (make_conversion_id mid ts))
      = [['R', 'A', 'T', 'E'], r ++ '|' :: mid, ts] := by
    rw [e1, splitOnChar_sep_append '_' _ _ hRATE,
      splitOnChar_sep_append '_' _ _ hpay, splitOnChar_nosep '_' ts hts1]
  have hsplit2 : splitOnChar '|' (r ++ '|' :: mid) = [r, mid] := by
    rw [splitOnChar_sep_append '|' r mid hrp, splitOnChar_nosep '|' mid hmidp]
  have hsplitFB : splitOnChar '|' (fb_callback_data (make_conversion_id mid ts))
      = [['F', 'B', '_', 'C', 'O', 'M', 'M', 'E', 'N', 'T'],
          make_conversion_id mid ts] := by
    unfold fb_callback_data
    rw [splitOnChar_sep_append '|' _ _ hFB,
      splitOnChar_nosep '|' _ hconvp]
  have hparse : parse_rate_action (rate_callback_data r (make_conversion_id mid ts))
      = some (rating, String.mk mid) := by
    unfold parse_rate_action
    rw [hsplit1]
    simp [hsplit2, hint]
  have hrate : handle_rate db u (rate_callback_data r (make_conversion_id mid ts))
      = ⟨save_feedback db u (String.mk mid) (some rating) none, true⟩ := by
    simp [handle_rate, hparse, get_feedback, h0, hlo, hhi]
  rw [hrate]
  have h2 : save_feedback db u (String.mk mid) (some rating) none
      (u, String.mk mid) = some ⟨some rating, none⟩ := by
    simp [save_feedback, h0]
  have h3 : save_feedback db u (String.mk mid) (some rating) none
      (u, String.mk (make_conversion_id mid ts)) = none := by
    simp [save_feedback, hne, h1]
  have hfb : handle_fb_comment
      (save_feedback db u (String.mk mid) (some rating) none) aw u
      (fb_callback_data (make_conversion_id mid ts))
      = fun x => if x = u then some (String.mk (make_conversion_id mid ts))
          else aw x := by
    unfold handle_fb_comment
    rw [hsplitFB]
    simp [get_feedback, h3]
  refine ⟨rfl, h2, h3, ?_, ?_, ?_, ?_⟩
  · simp [handle_rate, hparse, get_feedback, h2]
  · rw [hfb]
    simp
  · rw [hfb]
    simp [handle_comment_text, save_feedback, hne, h1]
  · rw [hfb]
    simp [handle_comment_text, save_feedback, Ne.symm hne, h0]

/-- C2 witness: user `"u"` rates conversion `456_17` with the button payload
`RATE_3|456_17`; the rating lands under the truncated key `"456"`, not under
the full id `"456_17"`. -/
theorem c2_feedback_ledger_witness :
    pyInt ['3'] = some 3 ∧
    ((fun _ => none) : String × String → Option FeedbackRec)
        ("u", String.mk ['4', '5', '6']) = none ∧
    (handle_rate (fun _ => none) "u"
        (rate_callback_data ['3'] (make_conversion_id ['4', '5', '6'] ['1', '7']))).db
        ("u", String.mk ['4', '5', '6']) = some ⟨some 3, none⟩ ∧
    (handle_rate (fun _ => none) "u"
        (rate_callback_data ['3'] (make_conversion_id ['4', '5', '6'] ['1', '7']))).db
        ("u", String.mk (make_conversion_id ['4', '5', '6'] ['1', '7'])) = none :=
  ⟨by decide, rfl,
    (c2_feedback_ledger (fun _ => none) (fun _ => none) "u" "ok"
      ['4', '5', '6'] ['1', '7'] ['3'] 3
      (by decide) (by decide) (by decide) (by decide) (by decide) (by decide)
      rfl rfl).2.1,
    (c2_feedback_ledger (fun _ => none) (fun _ => none) "u" "ok"
      ['4', '5', '6'] ['1', '7'] ['3'] 3
      (by decide) (by decide) (by decide) (by decide) (by decide) (by decide)
      rfl rfl).2.2.1⟩

/-- C3: a scan-requiring document with more than 10 pages is never extracted
automatically — the handler stores it and prompts for a choice; the
"first N" choice runs one extraction over `[1, min 10 total]`; the "split"
choice issues `⌈total/10⌉` sequential calls whose ranges are exactly
`[1,10], [11,20], …` capped at the total page count. -/
theorem c3_large_scan_branching (total : Nat) (h : 10 < total) :
    handle_document true total = DocAction.promptChoice total ∧
    ocr_first_10_range total = (1, min 10 total) ∧
    (split_chunks total).length = (total + 9) / 10 ∧
    split_chunks total
      = (List.range ((total + 9) / 10)).map
          (fun k => (10 * k + 1, min (10 * k + 10) total)) := by
  refine ⟨?_, rfl, ?_, split_chunks_eq total⟩
  · simp [handle_document, h]
  · rw [split_chunks_eq total]
    simp

/-- C3 witness: the 25-page scenario — 3 chunks `[1,10],[11,20],[21,25]`. -/
theorem c3_large_scan_branching_witness :
    10 < 25 ∧
    handle_document true 25 = DocAction.promptChoice 25 ∧
    ocr_first_10_range 25 = (1, 10) ∧
    split_chunks 25 = [(1, 10), (11, 20), (21, 25)] :=
  ⟨by decide, (c3_large_scan_branching 25 (by decide)).1, by decide,
    ((c3_large_scan_branching 25 (by decide)).2.2.2).trans (by decide)⟩

/-- C4 counterexample: when the constrained-charset recognition of a page
fails, `ocr_single` does not retry with an unconstrained configuration — it
immediately falls back to the empty string, never attempting
`OcrConfig.unconstrained` even though that call would have produced `"x"`. -/
theorem c4_counterexample_no_unconstrained_retry :
    constrainedFailsOracle OcrConfig.constrained = none ∧
    constrainedFailsOracle OcrConfig.unconstrained = some ['x'] ∧
    ocr_single constrainedFailsOracle = ([], [OcrConfig.constrained]) ∧
    OcrConfig.unconstrained ∉ (ocr_single constrainedFailsOracle).2 := by
  refine ⟨rfl, rfl, by decide, by decide⟩

/-- C4 (amended): when the constrained-configuration recognition of a page
fails, the page immediately contributes the empty string — there is exactly
one recognition attempt and no retry with another configuration — and a
failing page never aborts the batch: the extraction call over any batch
containing that page's (empty) result still returns a result. -/
theorem c4_single_attempt_policy (recognize : OcrConfig → Option (List Char))
    (h : recognize OcrConfig.constrained = none) :
    ocr_single recognize = ([], [OcrConfig.constrained]) ∧
    ∀ (pageTexts : List (List Char)) (order : List Nat) (i : Nat),
      (extract_text_from_pdf none true true
        (pageTexts.set i (ocr_single recognize).1) order).isOk = true := by
  constructor
  · simp [ocr_single, h]
  · intro pageTexts order i
    simp [extract_text_from_pdf, Except.isOk, Except.toBool]

/-- C4 witness. -/
theorem c4_single_attempt_policy_witness :
    constrainedFailsOracle OcrConfig.constrained = none ∧
    ocr_single constrainedFailsOracle = ([], [OcrConfig.constrained]) :=
  ⟨rfl, (c4_single_attempt_policy constrainedFailsOracle rfl).1⟩

/-- C5 counterexample: an OCR extraction whose only page recognizes to the
empty string returns a successful `Except.ok` outcome carrying blank text —
`extract_text_from_pdf` does not raise a classified "no recoverable text"
error on blank normalized output. -/
theorem c5_counterexample_blank_is_ok :
    extract_text_from_pdf none true true [[]] [0]
      = Except.ok ⟨[], Provenance.recognized, true, 1⟩ := by
  rfl

/-- C5 (amended): `extract_text_from_pdf` returns the normalized text even
when it is blank (an empty-text success); the blank-output classification is
done by the webhook caller, which turns a blank result into the user-visible
"no text extracted" failure instead of sending a file. -/
theorem c5_blank_classified_by_caller (pageTexts : List (List Char))
    (order : List Nat)
    (hblank : cleanText (ocrAggregate pageTexts order) = []) :
    extract_text_from_pdf none true true pageTexts order
      = Except.ok ⟨[], Provenance.recognized, true, order.length⟩ ∧
    deliver_result (cleanText (ocrAggregate pageTexts order))
      = DeliveryAction.noTextError := by
  constructor
  · simp [extract_text_from_pdf, hblank]
  · simp [deliver_result, hblank]
    rfl

/-- C5 witness. -/
theorem c5_blank_classified_by_caller_witness :
    cleanText (ocrAggregate [[]] [0]) = [] ∧
    deliver_result (cleanText (ocrAggregate [[]] [0]))
      = DeliveryAction.noTextError :=
  ⟨by decide, (c5_blank_classified_by_caller [[]] [0] (by decide)).2⟩

/-- C6 counterexample: after the requester chooses "recognize only the first
10 pages", the pending large-scan document is still held — the source
deliberately keeps the `pending_files` entry so `SPLIT_PDF` stays available —
contradicting "cleared whenever the requester makes a choice (either)". -/
theorem c6_counterexample_first10_keeps_pending :
    pending_after_first10 (pending_store (fun _ => none) 7 samplePending) 7 7
      = some samplePending := by
  rfl

/-- C6 (amended): at most one pending large-scan document is held per
requester (a keyed map; a new large scan supersedes the held one, other
requesters are unaffected); the entry is cleared when the requester chooses
"split"; the "first N" choice deliberately leaves the entry in place, and no
time-to-live is enforced (the creation timestamp is stored but never read). -/
theorem c6_pending_lifecycle (p : Nat → Option PendingDoc) (chat : Nat)
    (d d2 : PendingDoc) :
    pending_store p chat d chat = some d ∧
    pending_store (pending_store p chat d) chat d2 chat = some d2 ∧
    pending_after_split p chat chat = none ∧
    pending_after_first10 p chat = p ∧
    (∀ x, x ≠ chat → pending_store p chat d x = p x) := by
  refine ⟨by simp [pending_store], by simp [pending_store],
    by simp [pending_after_split], rfl, ?_⟩
  intro x hx
  simp [pending_store, hx]

/-- C7: for a document whose embedded text layer is non-blank, the webhook's
scan check computes `is_ocr_needed = false` and `extract_text_from_pdf`
returns the cleaned embedded text through the direct branch — no page is
rasterized and no recognition task runs, whatever the recognizer would have
produced. -/
theorem c7_direct_path (ps : List (List Char)) (h : pyStrip (joinNL ps) ≠ [])
    (rasterOk : Bool) (pageTexts : List (List Char)) (order : List Nat) :
    detect_is_ocr_needed ps = false ∧
    extract_text_from_pdf (some ps) (detect_is_ocr_needed ps) rasterOk
        pageTexts order
      = Except.ok ⟨cleanText (joinNL ps), Provenance.direct, false, 0⟩ := by
  have hd : detect_is_ocr_needed ps = false := by
    simp [detect_is_ocr_needed, h]
  refine ⟨hd, ?_⟩
  rw [hd]
  simp [extract_text_from_pdf, h]

/-- C7 witness. -/
theorem c7_direct_path_witness :
    pyStrip (joinNL [['h', 'i']]) ≠ [] ∧
    extract_text_from_pdf (some [['h', 'i']])
        (detect_is_ocr_needed [['h', 'i']]) true [] []
      = Except.ok ⟨cleanText (joinNL [['h', 'i']]), Provenance.direct, false, 0⟩ :=
  ⟨by decide, (c7_direct_path [['h', 'i']] (by decide) true [] []).2⟩

/-- C8 counterexample: `clean_text` is not idempotent on all strings — on
`"a\rb"` the line-splitting step converts the carriage return into `'\n'`,
and a second pass then collapses that fresh lone newline into a space. -/
theorem c8_counterexample_cr_not_idempotent :
    cleanText ['a', '\r', 'b'] = ['a', '\n', 'b'] ∧
    cleanText (cleanText ['a', '\r', 'b']) = ['a', ' ', 'b'] ∧
    cleanText (cleanText ['a', '\r', 'b']) ≠ cleanText ['a', '\r', 'b'] := by
  refine ⟨by decide, by decide, by decide⟩

/-- C8 (amended): `clean_text` is idempotent on every string that contains no
line-boundary character other than `'\n'` (no `\r`, `\v`, `\f`, FS/GS/RS,
NEL, U+2028, U+2029): normalizing an already-normalized such string returns
it unchanged. -/
theorem c8_cleanText_idempotent_on_benign (s : List Char)
    (hben : ∀ c ∈ s, benign c = true) :
    cleanText (cleanText s) = cleanText s := by
  by_cases hs : s = []
  · subst hs
    rfl
  · have hY1 : lf false (collapseSpaces (sub2 (sub1 s))) = true :=
      lf_collapse false (sub2Aux_lf (sub1 s) false)
    have hY2 : noTwoSpaces (collapseSpaces (sub2 (sub1 s))) := nts_collapse _
    have hY3 : ∀ c ∈ collapseSpaces (sub2 (sub1 s)), benign c = true := by
      intro c hc
      have h1 : c ∈ sub2Aux false (sub1 s) := mem_collapse hc
      rcases mem_sub2Aux false h1 with h2 | h2
      · exact hben c (mem_sub1Aux 0 h2)
      · rw [h2]
        decide
    have hC : cleanText s
        = pyStrip (joinNL
            ((pySplitlines (collapseSpaces (sub2 (sub1 s)))).map pyStrip)) := by
      rw [cleanText, if_neg hs]
      rfl
    rw [hC]
    exact cleanText_fixed_core _ hY1 hY2 hY3

/-- C8 witness. -/
theorem c8_cleanText_idempotent_witness :
    (∀ c ∈ ['a', ' ', ' ', 'b', '\n', 'c'], benign c = true) ∧
    cleanText (cleanText ['a', ' ', ' ', 'b', '\n', 'c'])
      = cleanText ['a', ' ', ' ', 'b', '\n', 'c'] :=
  ⟨by decide, c8_cleanText_idempotent_on_benign _ (by decide)⟩

/-- C9: a fingerprint derived from the message identifier and timestamp is
processed on first delivery and recorded; while the seen-set has not been
cleared, all replays are skipped, so `n + 1` deliveries process the message
exactly once and leave the fingerprint recorded; and once an insertion makes
the set exceed 1000 entries the whole set is cleared at once. -/
theorem c9_dedup_exactly_once (s s2 : Finset String) (mid date h2id h2date : String)
    (n : Nat) (h1 : get_message_hash mid date ∉ s)
    (h2 : (insert (get_message_hash mid date) s).card ≤ 1000)
    (h3 : 1000 < (insert (get_message_hash h2id h2date) s2).card) :
    (deliver_times (n + 1) s (get_message_hash mid date)).1 = 1 ∧
    (deliver_times (n + 1) s (get_message_hash mid date)).2
      = insert (get_message_hash mid date) s ∧
    mark_message_processed s2 (get_message_hash h2id h2date) = ∅ := by
  set fp := get_message_hash mid date with hfp
  have hmark : mark_message_processed s fp = insert fp s := by
    simp only [mark_message_processed]
    rw [if_neg (by omega)]
  have hstep : webhook_dedup_step s fp = (true, insert fp s) := by
    simp [webhook_dedup_step, is_message_processed, h1, hmark]
  have hrest : deliver_times n (insert fp s) fp = (0, insert fp s) :=
    deliver_times_mem n _ fp (Finset.mem_insert_self fp s)
  refine ⟨?_, ?_, ?_⟩
  · simp [deliver_times, hstep, hrest]
  · simp [deliver_times, hstep, hrest]
  · simp only [mark_message_processed]
    rw [if_pos h3]

/-- C9 witness. -/
theorem c9_dedup_exactly_once_witness :
    get_message_hash "42" "_1700" ∉ (∅ : Finset String) ∧
    (insert (get_message_hash "42" "_1700") (∅ : Finset String)).card ≤ 1000 ∧
    1000 < (insert (get_message_hash "9" "_1701") bigSeen).card ∧
    (deliver_times 3 (∅ : Finset String) (get_message_hash "42" "_1700")).1 = 1 :=
  have h3 : 1000 < (insert (get_message_hash "9" "_1701") bigSeen).card := by
    have h4 := Finset.card_le_card
      (Finset.subset_insert (get_message_hash "9" "_1701") bigSeen)
    rw [bigSeen_card] at h4
    omega
  ⟨by decide, by decide, h3,
    (c9_dedup_exactly_once ∅ bigSeen "42" "_1700" "9" "_1701" 2 (by decide)
      (by decide) h3).1⟩

/-- C10: when `extract_text_from_pdf` receives an explicit page range whose
first page exceeds its last page, the two bounds are swapped and the
resolved range is the non-empty interval `[last, first]`. -/
theorem c10_page_range_swap (f l : Nat) (h : l < f) :
    resolve_page_range (some f) (some l) 10 = (l, f) ∧ l ≤ f := by
  refine ⟨?_, Nat.le_of_lt h⟩
  simp [resolve_page_range, h]

/-- C10 witness. -/
theorem c10_page_range_swap_witness :
    2 < 5 ∧ resolve_page_range (some 5) (some 2) 10 = (2, 5) :=
  ⟨by decide, (c10_page_range_swap 5 2 (by decide)).1⟩

end InterPdf
